import Mathlib

/-!
Verification development for the in-process memory-tracking engine of the
fil profiler repository.  The repository's `src/` tree contains the C FFI
surface (`src/memapi/src/lib.rs`) and two build scripts; the tracking engine
itself (the `memorytracking` module providing `CommandProcessor`) is not in
`src/`, so the engine is modelled here from the specification's contracts,
and the FFI wrapper `pymemprofile_dump_peak_to_flamegraph` is embedded from
`src/memapi/src/lib.rs` directly.
-/

namespace FilProfiler

/-- Embeds `memorytracking::Function` (constructed in
`src/memapi/src/lib.rs` via `Function::new(module_name, function_name)`):
identity is the pair of module name and function name. -/
structure Function where
  module_name : String
  function_name : String
deriving DecidableEq, Repr

/-- Modelled from the spec: a Call Frame is
`(function: Function id, call_line: line number, caller_line: line number)`,
pushed when a traced call begins and popped when it ends. -/
structure CallFrame where
  function : Function
  call_line : Nat
  caller_line : Nat
deriving DecidableEq, Repr

/-- Modelled from the spec: a Call Path is the ordered sequence of active
Call Frames for one thread, root first; two paths are equal iff their frame
sequences are equal element-wise. -/
abbrev CallPath := List CallFrame

/-- Modelled from the spec: an Allocation Record is
`(address, size_bytes ≥ 0, owning_call_path)`; the address is the key of the
ledger entry holding the record. -/
structure AllocationRecord where
  size : Nat
  path : CallPath
deriving DecidableEq, Repr

/-- Modelled from the spec: the state of the engine behind
`memorytracking::CommandProcessor` (not present under `src/`): the calling
thread's call stack, the Allocation Ledger (address keyed), the stored peak
maximum, and the Peak Snapshot (`none` until a first peak is recorded; the
snapshot stores only paths and byte sums, addresses excluded). -/
structure CommandProcessor where
  callstack : List CallFrame
  ledger : List (Nat × AllocationRecord)
  peak_bytes : Nat
  peak_snapshot : Option (List (CallPath × Nat))
deriving DecidableEq, Repr

/-- Modelled from the spec: `CommandProcessor::new()` — the empty initial
state (no frames, empty ledger, zero peak, no snapshot yet). -/
def CommandProcessor.new : CommandProcessor :=
  { callstack := [], ledger := [], peak_bytes := 0, peak_snapshot := none }

/-- Modelled from the spec: `total_live_bytes()` returns the root aggregate,
the sum of sizes of all live Allocation Records. -/
def total_live_bytes (s : CommandProcessor) : Nat :=
  (s.ledger.map (fun e => e.2.size)).sum

/-- Accumulate `n` bytes onto the entry for path `p`, appending a new entry
in first-discovered order when `p` is not yet present. -/
def addBytes (acc : List (CallPath × Nat)) (p : CallPath) (n : Nat) :
    List (CallPath × Nat) :=
  match acc with
  | [] => [(p, n)]
  | (q, m) :: rest =>
      if q = p then (q, m + n) :: rest else (q, m) :: addBytes rest p n

def pathBytesAux (acc : List (CallPath × Nat)) :
    List (Nat × AllocationRecord) → List (CallPath × Nat)
  | [] => acc
  | e :: rest => pathBytesAux (addBytes acc e.2.path e.2.size) rest

/-- Modelled from the spec: the Call-Tree's byte attribution as captured by a
Peak Snapshot — per owning call path, the byte sum of live records, addresses
excluded, sibling order being first-discovered order. -/
def pathBytes (ledger : List (Nat × AllocationRecord)) : List (CallPath × Nat) :=
  pathBytesAux [] ledger

/-- Modelled from the spec: after every ledger mutation compare the new total
against the stored maximum; if strictly greater, replace the stored maximum
and replace the Peak Snapshot with a point-in-time copy of the Call-Tree's
byte attribution; ties replace neither. -/
def checkPeak (s : CommandProcessor) : CommandProcessor :=
  if s.peak_bytes < total_live_bytes s then
    { s with peak_bytes := total_live_bytes s,
             peak_snapshot := some (pathBytes s.ledger) }
  else s

/-- Modelled from the spec: the owning call path of a new allocation is the
thread's current call path augmented with the allocation-site line number as
the line of the top frame. -/
def setAllocLine : List CallFrame → Nat → List CallFrame
  | [], _ => []
  | [f], line => [{ f with call_line := line }]
  | f :: g :: rest, line => f :: setAllocLine (g :: rest) line

/-- Remove the ledger entry at `address` when present. -/
def removeAddress (ledger : List (Nat × AllocationRecord)) (address : Nat) :
    List (Nat × AllocationRecord) :=
  ledger.filter (fun e => e.1 ≠ address)

/-- Look up the live Allocation Record at `address`, if any. -/
def lookupLedger : List (Nat × AllocationRecord) → Nat → Option AllocationRecord
  | [], _ => none
  | e :: rest, x => if e.1 = x then some e.2 else lookupLedger rest x

/-- Modelled from the spec: `add_allocation(address, size, line_number)`
records an allocation at the thread's current call path (augmented with the
allocation-site line), inserting or replacing the live record at `address`
(retiring a stale record first, so its bytes are no longer counted), then
re-runs peak detection. -/
def add_allocation (s : CommandProcessor) (address size line_number : Nat) :
    CommandProcessor :=
  let path := setAllocLine s.callstack line_number
  checkPeak
    { s with
        ledger := removeAddress s.ledger address ++
          [(address, { size := size, path := path })] }

/-- Modelled from the spec: `free_allocation(address)` removes the live record
at `address` if present; a free for an unknown address is a silent no-op; no
peak re-check (frees cannot increase the total). -/
def free_allocation (s : CommandProcessor) (address : Nat) : CommandProcessor :=
  { s with ledger := removeAddress s.ledger address }

/-- Modelled from the spec: `start_call(call_site, parent_line_number,
line_number)` pushes a Call Frame for the calling thread. -/
def start_call (s : CommandProcessor) (call_site : Function)
    (parent_line_number line_number : Nat) : CommandProcessor :=
  { s with
      callstack := s.callstack ++
        [{ function := call_site, call_line := line_number,
           caller_line := parent_line_number }] }

/-- Modelled from the spec: `finish_call()` pops the calling thread's top
Call Frame; stack underflow (exit with empty stack) is a non-fatal anomaly
that is ignored. -/
def finish_call (s : CommandProcessor) : CommandProcessor :=
  { s with callstack := s.callstack.dropLast }

/-- Modelled from the spec: `reset()` clears the Allocation Ledger, Call-Tree
and Peak Snapshot back to an empty initial state. -/
def reset (s : CommandProcessor) : CommandProcessor :=
  { s with ledger := [], peak_bytes := 0, peak_snapshot := none }

/-- The mutating engine operations exposed to the interception shim. -/
inductive Op where
  | add_allocation (address size line_number : Nat)
  | free_allocation (address : Nat)
  | start_call (call_site : Function) (parent_line_number line_number : Nat)
  | finish_call
  | reset
deriving DecidableEq, Repr

def exec (s : CommandProcessor) : Op → CommandProcessor
  | .add_allocation a sz ln => add_allocation s a sz ln
  | .free_allocation a => free_allocation s a
  | .start_call f pl ln => start_call s f pl ln
  | .finish_call => finish_call s
  | .reset => reset s

/-- Run a sequence of engine operations from state `s`. -/
def run (s : CommandProcessor) : List Op → CommandProcessor
  | [] => s
  | op :: ops => run (exec s op) ops

/-- Modelled from the spec: the frame label used in folded-stack lines,
`module.function:line`. -/
def frameLabel (f : CallFrame) : String :=
  f.function.module_name ++ "." ++ f.function.function_name ++ ":" ++
    toString f.call_line

/-- Join the frame labels of a call path with semicolons, root to leaf. -/
def joinFrames : CallPath → String
  | [] => ""
  | [f] => frameLabel f
  | f :: g :: rest => frameLabel f ++ ";" ++ joinFrames (g :: rest)

/-- Modelled from the spec: the Flamegraph Exporter walk — one folded-stack
line per snapshot node with nonzero directly-attributed bytes (zero-byte
nodes omitted entirely), each line the semicolon-joined frame labels followed
by the node's byte count. -/
def foldedLines : List (CallPath × Nat) → List String
  | [] => []
  | (p, b) :: rest =>
      if b = 0 then foldedLines rest
      else (joinFrames p ++ " " ++ toString b) :: foldedLines rest

/-- The snapshot handed to the exporter: the current Peak Snapshot, or an
empty one if none was recorded yet. -/
def snapshotEntries (s : CommandProcessor) : List (CallPath × Nat) :=
  s.peak_snapshot.getD []

/-- The full folded-stack report text written on dump. -/
def reportText (s : CommandProcessor) : String :=
  String.intercalate "\n" (foldedLines (snapshotEntries s))

/-- Modelled from the spec: `dump_peak_to_flamegraph(path)` freezes the
current Peak Snapshot (or an empty one) and writes the folded-stack report;
the file write is the environment parameter `write`, whose I/O failure is
surfaced as a distinct error result while tracking state is left unchanged. -/
def dump_peak_to_flamegraph (s : CommandProcessor)
    (write : String → Except String Unit) :
    Except String Unit × CommandProcessor :=
  (write (reportText s), s)

/-- Directly-attributed bytes of the Call-Tree node at path `p`: live records
whose owning call path terminates exactly here. -/
def directBytes (ledger : List (Nat × AllocationRecord)) (p : CallPath) : Nat :=
  ((ledger.filter (fun e => e.2.path = p)).map (fun e => e.2.size)).sum

/-- Modelled from the spec: a Call-Tree node's aggregate byte count — the sum
of live Allocation Records whose owning call path has this node's path as a
prefix. -/
def subtreeBytes (ledger : List (Nat × AllocationRecord)) (p : CallPath) : Nat :=
  ((ledger.filter (fun e => p.isPrefixOf e.2.path)).map (fun e => e.2.size)).sum

/-- The frame keying the child of the node at `p` under which the call path
`q` falls: the frame of `q` right after the prefix `p`, when there is one. -/
def childFrame (p q : CallPath) : Option CallFrame :=
  if p.isPrefixOf q then (q.drop p.length).head? else none

/-- The children of the Call-Tree node at `p`, keyed by next Call Frame, in
first-discovered order. -/
def childFrames (ledger : List (Nat × AllocationRecord)) (p : CallPath) :
    List CallFrame :=
  (ledger.filterMap (fun e => childFrame p e.2.path)).dedup

/-- The maximum value `total_live_bytes()` takes at any point while running
`ops` from `s` (the value in `s` itself included). -/
def maxTotals (s : CommandProcessor) : List Op → Nat
  | [] => total_live_bytes s
  | op :: ops => max (total_live_bytes s) (maxTotals (exec s op) ops)

/-- A session: a sequence of engine operations containing no `reset`. -/
def ResetFree (ops : List Op) : Prop :=
  ∀ op ∈ ops, op ≠ Op.reset

instance : DecidablePred ResetFree := fun ops =>
  inferInstanceAs (Decidable (∀ op ∈ ops, op ≠ Op.reset))

/-- The spec-side ledger of `(address, size)` pairs allocated but not yet
freed after a sequence of operations, starting from the live pairs `acc`. -/
def specLive (acc : List (Nat × Nat)) : List Op → List (Nat × Nat)
  | [] => acc
  | Op.add_allocation a sz _ :: ops => specLive (acc ++ [(a, sz)]) ops
  | Op.free_allocation a :: ops => specLive (acc.filter (fun e => e.1 ≠ a)) ops
  | Op.start_call _ _ _ :: ops => specLive acc ops
  | Op.finish_call :: ops => specLive acc ops
  | Op.reset :: ops => specLive [] ops

/-- Holds when every `add_allocation` in `ops` uses an address distinct from
all addresses live at that moment (`acc` being the pairs live initially). -/
def distinctLiveAdds (acc : List (Nat × Nat)) : List Op → Bool
  | [] => true
  | Op.add_allocation a sz _ :: ops =>
      acc.all (fun e => e.1 != a) && distinctLiveAdds (acc ++ [(a, sz)]) ops
  | Op.free_allocation a :: ops =>
      distinctLiveAdds (acc.filter (fun e => e.1 ≠ a)) ops
  | Op.start_call _ _ _ :: ops => distinctLiveAdds acc ops
  | Op.finish_call :: ops => distinctLiveAdds acc ops
  | Op.reset :: ops => distinctLiveAdds [] ops

/-- The `(address, size)` pairs held by the engine's ledger. -/
def ledgerPairs (s : CommandProcessor) : List (Nat × Nat) :=
  s.ledger.map (fun e => (e.1, e.2.size))

/-- Is `b` a UTF-8 continuation byte (`0x80..=0xBF`)? -/
def utf8Cont (b : Nat) : Bool :=
  0x80 ≤ b && b ≤ 0xBF

/-- UTF-8 validity of a byte sequence, following the acceptance table of
Rust's `core::str` validation (which `CStr::to_str` runs): ASCII; two-byte
sequences led by `0xC2..=0xDF`; three-byte sequences led by `0xE0` (second
byte `0xA0..=0xBF`), `0xE1..=0xEC`, `0xED` (second byte `0x80..=0x9F`,
excluding surrogates) or `0xEE..=0xEF`; four-byte sequences led by `0xF0`
(second byte `0x90..=0xBF`), `0xF1..=0xF3` or `0xF4` (second byte
`0x80..=0x8F`). -/
def validUtf8 : List Nat → Bool
  | [] => true
  | b :: rest =>
    if b ≤ 0x7F then validUtf8 rest
    else
      match rest with
      | [] => false
      | b1 :: rest1 =>
        if 0xC2 ≤ b && b ≤ 0xDF then utf8Cont b1 && validUtf8 rest1
        else
          match rest1 with
          | [] => false
          | b2 :: rest2 =>
            if (b == 0xE0 && (0xA0 ≤ b1 && b1 ≤ 0xBF) ||
                (0xE1 ≤ b && b ≤ 0xEC) && utf8Cont b1 ||
                b == 0xED && (0x80 ≤ b1 && b1 ≤ 0x9F) ||
                (0xEE ≤ b && b ≤ 0xEF) && utf8Cont b1) then
              utf8Cont b2 && validUtf8 rest2
            else
              match rest2 with
              | [] => false
              | b3 :: rest3 =>
                if (b == 0xF0 && (0x90 ≤ b1 && b1 ≤ 0xBF) ||
                    (0xF1 ≤ b && b ≤ 0xF3) && utf8Cont b1 ||
                    b == 0xF4 && (0x80 ≤ b1 && b1 ≤ 0x8F)) then
                  utf8Cont b2 && utf8Cont b3 && validUtf8 rest3
                else false

/-- Embeds `pymemprofile_dump_peak_to_flamegraph` from
`src/memapi/src/lib.rs`: the path's bytes go through `CStr::to_str`, whose
result is unwrapped with `.expect("Path wasn't UTF-8")` — a panic (`none`)
when the bytes are not valid UTF-8 — and on success the dump proceeds. -/
def pymemprofile_dump_peak_to_flamegraph (path_bytes : List Nat)
    (s : CommandProcessor) (write : String → Except String Unit) :
    Option (Except String Unit × CommandProcessor) :=
  if validUtf8 path_bytes then some (dump_peak_to_flamegraph s write) else none

/-- Byte sum over a snapshot's entries. -/
def entriesSum (entries : List (CallPath × Nat)) : Nat :=
  (entries.map Prod.snd).sum

theorem checkPeak_ledger (s : CommandProcessor) : (checkPeak s).ledger = s.ledger := by
  unfold checkPeak
  split <;> rfl

theorem checkPeak_callstack (s : CommandProcessor) :
    (checkPeak s).callstack = s.callstack := by
  unfold checkPeak
  split <;> rfl

theorem total_checkPeak (s : CommandProcessor) :
    total_live_bytes (checkPeak s) = total_live_bytes s := by
  unfold total_live_bytes
  rw [checkPeak_ledger]

theorem checkPeak_peak (s : CommandProcessor) :
    (checkPeak s).peak_bytes = max s.peak_bytes (total_live_bytes s) := by
  unfold checkPeak
  split
  · rename_i h
    simp [Nat.max_eq_right (Nat.le_of_lt h)]
  · rename_i h
    simp [Nat.max_eq_left (Nat.le_of_not_lt h)]

theorem checkPeak_snapshot (s : CommandProcessor) :
    (checkPeak s).peak_snapshot =
      if s.peak_bytes < total_live_bytes s then some (pathBytes s.ledger)
      else s.peak_snapshot := by
  unfold checkPeak
  split <;> rfl

theorem sum_removeAddress_le (l : List (Nat × AllocationRecord)) (a : Nat) :
    ((removeAddress l a).map (fun e => e.2.size)).sum ≤
      (l.map (fun e => e.2.size)).sum := by
  induction l with
  | nil => simp [removeAddress]
  | cons e rest ih =>
      simp only [removeAddress, List.filter_cons] at *
      split
      · simp only [List.map_cons, List.sum_cons]
        omega
      · simp only [List.map_cons, List.sum_cons]
        omega

theorem total_free_le (s : CommandProcessor) (a : Nat) :
    total_live_bytes (free_allocation s a) ≤ total_live_bytes s := by
  unfold free_allocation total_live_bytes
  exact sum_removeAddress_le s.ledger a

theorem exec_peak_ge (s : CommandProcessor) (op : Op) (hop : op ≠ Op.reset) :
    s.peak_bytes ≤ (exec s op).peak_bytes := by
  cases op with
  | add_allocation a sz ln =>
      show s.peak_bytes ≤ (checkPeak _).peak_bytes
      rw [checkPeak_peak]
      exact Nat.le_max_left _ _
  | free_allocation a => exact Nat.le_refl _
  | start_call f pl ln => exact Nat.le_refl _
  | finish_call => exact Nat.le_refl _
  | reset => exact absurd rfl hop

theorem peakInv_exec (s : CommandProcessor) (op : Op)
    (h : total_live_bytes s ≤ s.peak_bytes) :
    total_live_bytes (exec s op) ≤ (exec s op).peak_bytes := by
  cases op with
  | add_allocation a sz ln =>
      show total_live_bytes (checkPeak _) ≤ (checkPeak _).peak_bytes
      rw [total_checkPeak, checkPeak_peak]
      exact Nat.le_max_right _ _
  | free_allocation a =>
      calc total_live_bytes (free_allocation s a) ≤ total_live_bytes s :=
            total_free_le s a
        _ ≤ s.peak_bytes := h
  | start_call f pl ln => exact h
  | finish_call => exact h
  | reset => exact Nat.le_refl 0

theorem exec_peak_eq (s : CommandProcessor) (op : Op) (hop : op ≠ Op.reset)
    (h : total_live_bytes s ≤ s.peak_bytes) :
    (exec s op).peak_bytes = max s.peak_bytes (total_live_bytes (exec s op)) := by
  cases op with
  | add_allocation a sz ln =>
      show (checkPeak _).peak_bytes = max s.peak_bytes (total_live_bytes (checkPeak _))
      rw [total_checkPeak, checkPeak_peak]
  | free_allocation a =>
      have := total_free_le s a
      show s.peak_bytes = max s.peak_bytes (total_live_bytes (free_allocation s a))
      omega
  | start_call f pl ln =>
      show s.peak_bytes = max s.peak_bytes (total_live_bytes s)
      omega
  | finish_call =>
      show s.peak_bytes = max s.peak_bytes (total_live_bytes s)
      omega
  | reset => exact absurd rfl hop

theorem exec_snapshot_eq (s : CommandProcessor) (op : Op) (hop : op ≠ Op.reset)
    (h : total_live_bytes s ≤ s.peak_bytes) :
    (exec s op).peak_snapshot =
      if s.peak_bytes < total_live_bytes (exec s op) then
        some (pathBytes (exec s op).ledger)
      else s.peak_snapshot := by
  cases op with
  | add_allocation a sz ln =>
      have h1 : exec s (Op.add_allocation a sz ln) =
          checkPeak { s with
            ledger := removeAddress s.ledger a ++
              [(a, { size := sz, path := setAllocLine s.callstack ln })] } := rfl
      rw [h1, checkPeak_snapshot, checkPeak_ledger, total_checkPeak]
  | free_allocation a =>
      have ht : total_live_bytes (exec s (Op.free_allocation a)) =
          total_live_bytes (free_allocation s a) := rfl
      rw [ht]
      have := total_free_le s a
      have hlt : ¬ s.peak_bytes < total_live_bytes (free_allocation s a) := by omega
      rw [if_neg hlt]
      rfl
  | start_call f pl ln =>
      have ht : total_live_bytes (exec s (Op.start_call f pl ln)) =
          total_live_bytes s := rfl
      rw [ht]
      have hlt : ¬ s.peak_bytes < total_live_bytes s := by omega
      rw [if_neg hlt]
      rfl
  | finish_call =>
      have ht : total_live_bytes (exec s Op.finish_call) = total_live_bytes s := rfl
      rw [ht]
      have hlt : ¬ s.peak_bytes < total_live_bytes s := by omega
      rw [if_neg hlt]
      rfl
  | reset => exact absurd rfl hop

theorem le_maxTotals (s : CommandProcessor) (ops : List Op) :
    total_live_bytes s ≤ maxTotals s ops := by
  cases ops with
  | nil => exact Nat.le_refl _
  | cons op ops => exact Nat.le_max_left _ _

theorem run_peak_eq (ops : List Op) : ∀ s : CommandProcessor, ResetFree ops →
    total_live_bytes s ≤ s.peak_bytes →
    (run s ops).peak_bytes = max s.peak_bytes (maxTotals s ops) := by
  induction ops with
  | nil =>
      intro s _ h
      show s.peak_bytes = max s.peak_bytes (total_live_bytes s)
      omega
  | cons op ops ih =>
      intro s hops h
      have hop : op ≠ Op.reset := hops op (List.mem_cons_self op ops)
      have hops2 : ResetFree ops := fun o ho => hops o (List.mem_cons_of_mem op ho)
      have h1 : total_live_bytes (exec s op) ≤ (exec s op).peak_bytes :=
        peakInv_exec s op h
      have ihx := ih (exec s op) hops2 h1
      show (run (exec s op) ops).peak_bytes = max s.peak_bytes (maxTotals s (op :: ops))
      rw [ihx, exec_peak_eq s op hop h]
      have h2 : total_live_bytes (exec s op) ≤ maxTotals (exec s op) ops :=
        le_maxTotals _ _
      show max (max s.peak_bytes (total_live_bytes (exec s op)))
          (maxTotals (exec s op) ops)
        = max s.peak_bytes (max (total_live_bytes s) (maxTotals (exec s op) ops))
      omega

theorem run_peakInv (ops : List Op) : ∀ s : CommandProcessor,
    total_live_bytes s ≤ s.peak_bytes →
    total_live_bytes (run s ops) ≤ (run s ops).peak_bytes := by
  induction ops with
  | nil => intro s h; exact h
  | cons op ops ih => intro s h; exact ih (exec s op) (peakInv_exec s op h)

/-- C1: over any session (no reset), the stored peak maximum and the Peak
Snapshot are replaced exactly when an operation makes `total_live_bytes()`
strictly greater than the stored maximum; a tie (new total equal to the
stored maximum) replaces neither, and at every point the recorded peak
equals the maximum `total_live_bytes()` observed so far (hence it is
non-decreasing over the session). -/
theorem peak_detection (ops : List Op) (op : Op) (hops : ResetFree ops)
    (hop : op ≠ Op.reset) :
    (run CommandProcessor.new ops).peak_bytes =
        maxTotals CommandProcessor.new ops
    ∧ ((run CommandProcessor.new ops).peak_bytes <
          total_live_bytes (exec (run CommandProcessor.new ops) op) →
        (exec (run CommandProcessor.new ops) op).peak_bytes =
            total_live_bytes (exec (run CommandProcessor.new ops) op)
          ∧ (exec (run CommandProcessor.new ops) op).peak_snapshot =
              some (pathBytes (exec (run CommandProcessor.new ops) op).ledger))
    ∧ (total_live_bytes (exec (run CommandProcessor.new ops) op) ≤
          (run CommandProcessor.new ops).peak_bytes →
        (exec (run CommandProcessor.new ops) op).peak_bytes =
            (run CommandProcessor.new ops).peak_bytes
          ∧ (exec (run CommandProcessor.new ops) op).peak_snapshot =
              (run CommandProcessor.new ops).peak_snapshot) := by
  have hinv : total_live_bytes (run CommandProcessor.new ops) ≤
      (run CommandProcessor.new ops).peak_bytes :=
    run_peakInv ops CommandProcessor.new (Nat.le_refl 0)
  refine ⟨?_, ?_, ?_⟩
  · have h1 := run_peak_eq ops CommandProcessor.new hops (Nat.le_refl 0)
    rw [h1]
    have h0 : CommandProcessor.new.peak_bytes = 0 := rfl
    rw [h0]
    omega
  · intro hlt
    have hp := exec_peak_eq (run CommandProcessor.new ops) op hop hinv
    have hs := exec_snapshot_eq (run CommandProcessor.new ops) op hop hinv
    rw [if_pos hlt] at hs
    exact ⟨by omega, hs⟩
  · intro hle
    have hp := exec_peak_eq (run CommandProcessor.new ops) op hop hinv
    have hs := exec_snapshot_eq (run CommandProcessor.new ops) op hop hinv
    rw [if_neg (by omega)] at hs
    exact ⟨by omega, hs⟩

theorem peak_detection_witness :
    ResetFree [Op.add_allocation 1 5 0]
    ∧ Op.free_allocation 1 ≠ Op.reset
    ∧ (run CommandProcessor.new [Op.add_allocation 1 5 0]).peak_bytes =
        maxTotals CommandProcessor.new [Op.add_allocation 1 5 0] :=
  ⟨by decide, by decide,
    (peak_detection [Op.add_allocation 1 5 0] (Op.free_allocation 1)
      (by decide) (by decide)).1⟩

theorem entriesSum_addBytes (acc : List (CallPath × Nat)) (p : CallPath)
    (n : Nat) : entriesSum (addBytes acc p n) = entriesSum acc + n := by
  induction acc with
  | nil => simp [addBytes, entriesSum]
  | cons e rest ih =>
      obtain ⟨q, m⟩ := e
      simp only [addBytes]
      split
      · simp only [entriesSum, List.map_cons, List.sum_cons]
        omega
      · simp only [entriesSum, List.map_cons, List.sum_cons] at *
        omega

theorem entriesSum_pathBytesAux (l : List (Nat × AllocationRecord)) :
    ∀ acc, entriesSum (pathBytesAux acc l) =
      entriesSum acc + (l.map (fun e => e.2.size)).sum := by
  induction l with
  | nil => intro acc; simp [pathBytesAux]
  | cons e rest ih =>
      intro acc
      simp only [pathBytesAux, List.map_cons, List.sum_cons]
      rw [ih, entriesSum_addBytes]
      omega

theorem entriesSum_pathBytes (l : List (Nat × AllocationRecord)) :
    entriesSum (pathBytes l) = (l.map (fun e => e.2.size)).sum := by
  unfold pathBytes
  rw [entriesSum_pathBytesAux]
  simp [entriesSum]

theorem snapInv_checkPeak (s : CommandProcessor)
    (h : ∀ snap, s.peak_snapshot = some snap → entriesSum snap = s.peak_bytes) :
    ∀ snap, (checkPeak s).peak_snapshot = some snap →
      entriesSum snap = (checkPeak s).peak_bytes := by
  intro snap hs
  unfold checkPeak at hs ⊢
  by_cases hlt : s.peak_bytes < total_live_bytes s
  · rw [if_pos hlt] at hs ⊢
    have h2 : some (pathBytes s.ledger) = some snap := hs
    obtain rfl : pathBytes s.ledger = snap := Option.some.inj h2
    show entriesSum (pathBytes s.ledger) = total_live_bytes s
    exact entriesSum_pathBytes s.ledger
  · rw [if_neg hlt] at hs ⊢
    exact h snap hs

theorem snapInv_exec (s : CommandProcessor) (op : Op)
    (h : ∀ snap, s.peak_snapshot = some snap → entriesSum snap = s.peak_bytes) :
    ∀ snap, (exec s op).peak_snapshot = some snap →
      entriesSum snap = (exec s op).peak_bytes := by
  cases op with
  | add_allocation a sz ln => exact snapInv_checkPeak _ h
  | free_allocation a => exact h
  | start_call f pl ln => exact h
  | finish_call => exact h
  | reset =>
      intro snap hs
      exact Option.noConfusion hs

theorem run_snapInv (ops : List Op) : ∀ s : CommandProcessor,
    (∀ snap, s.peak_snapshot = some snap → entriesSum snap = s.peak_bytes) →
    ∀ snap, (run s ops).peak_snapshot = some snap →
      entriesSum snap = (run s ops).peak_bytes := by
  induction ops with
  | nil => intro s h; exact h
  | cons op ops ih => intro s h; exact ih (exec s op) (snapInv_exec s op h)

/-- C4: in every reachable state in which a Peak Snapshot exists, the sum of
all byte values recorded in the Peak Snapshot equals the recorded peak
value. -/
theorem snapshot_peak_correspondence (ops : List Op)
    (snap : List (CallPath × Nat))
    (h : (run CommandProcessor.new ops).peak_snapshot = some snap) :
    entriesSum snap = (run CommandProcessor.new ops).peak_bytes :=
  run_snapInv ops CommandProcessor.new
    (fun _snap hs => Option.noConfusion hs) snap h

theorem removeAddress_eq_self (l : List (Nat × AllocationRecord)) (a : Nat)
    (h : ∀ e ∈ l, e.1 ≠ a) : removeAddress l a = l := by
  unfold removeAddress
  induction l with
  | nil => rfl
  | cons e rest ih =>
      have h1 : e.1 ≠ a := h e (List.mem_cons_self e rest)
      have h2 : decide (e.1 ≠ a) = true := by simpa using h1
      rw [List.filter_cons, if_pos h2,
        ih (fun x hx => h x (List.mem_cons_of_mem e hx))]

theorem pairs_removeAddress (l : List (Nat × AllocationRecord)) (a : Nat) :
    (removeAddress l a).map (fun e => (e.1, e.2.size)) =
      (l.map (fun e => (e.1, e.2.size))).filter (fun e => e.1 ≠ a) := by
  unfold removeAddress
  rw [List.filter_map (fun e => (e.1, e.2.size)) l]
  rfl

theorem distinctLiveAdds_keys (acc : List (Nat × Nat)) (a : Nat)
    (l : List (Nat × AllocationRecord))
    (hacc : l.map (fun e => (e.1, e.2.size)) = acc)
    (hall : acc.all (fun e => e.1 != a) = true) :
    ∀ e ∈ l, e.1 ≠ a := by
  intro e he
  have hmem : (e.1, e.2.size) ∈ acc := by
    rw [← hacc]
    exact List.mem_map_of_mem (fun e => (e.1, e.2.size)) he
  have := List.all_eq_true.mp hall _ hmem
  simpa using this

theorem ledgerPairs_run (ops : List Op) : ∀ s : CommandProcessor,
    distinctLiveAdds (ledgerPairs s) ops = true →
    ledgerPairs (run s ops) = specLive (ledgerPairs s) ops := by
  induction ops with
  | nil => intro s _; rfl
  | cons op ops ih =>
      intro s hd
      cases op with
      | add_allocation a sz ln =>
          simp only [distinctLiveAdds, Bool.and_eq_true] at hd
          obtain ⟨hall, hrest⟩ := hd
          have hkeys : ∀ e ∈ s.ledger, e.1 ≠ a :=
            distinctLiveAdds_keys (ledgerPairs s) a s.ledger rfl hall
          have hledger : (exec s (Op.add_allocation a sz ln)).ledger =
              s.ledger ++
                [(a, { size := sz, path := setAllocLine s.callstack ln })] := by
            show (checkPeak _).ledger = _
            rw [checkPeak_ledger]
            show removeAddress s.ledger a ++ _ = _
            rw [removeAddress_eq_self s.ledger a hkeys]
          have hpairs : ledgerPairs (exec s (Op.add_allocation a sz ln)) =
              ledgerPairs s ++ [(a, sz)] := by
            unfold ledgerPairs
            rw [hledger, List.map_append]
            rfl
          show ledgerPairs (run (exec s (Op.add_allocation a sz ln)) ops) =
            specLive (ledgerPairs s ++ [(a, sz)]) ops
          rw [ih (exec s (Op.add_allocation a sz ln)) (by rw [hpairs]; exact hrest),
            hpairs]
      | free_allocation a =>
          simp only [distinctLiveAdds] at hd
          have hpairs : ledgerPairs (exec s (Op.free_allocation a)) =
              (ledgerPairs s).filter (fun e => e.1 ≠ a) := by
            unfold ledgerPairs
            show (removeAddress s.ledger a).map _ = _
            exact pairs_removeAddress s.ledger a
          show ledgerPairs (run (exec s (Op.free_allocation a)) ops) =
            specLive ((ledgerPairs s).filter (fun e => e.1 ≠ a)) ops
          rw [ih (exec s (Op.free_allocation a)) (by rw [hpairs]; exact hd),
            hpairs]
      | start_call f pl ln =>
          simp only [distinctLiveAdds] at hd
          have hpairs : ledgerPairs (exec s (Op.start_call f pl ln)) =
              ledgerPairs s := rfl
          show ledgerPairs (run (exec s (Op.start_call f pl ln)) ops) =
            specLive (ledgerPairs s) ops
          rw [ih (exec s (Op.start_call f pl ln)) (by rw [hpairs]; exact hd),
            hpairs]
      | finish_call =>
          simp only [distinctLiveAdds] at hd
          have hpairs : ledgerPairs (exec s Op.finish_call) = ledgerPairs s := rfl
          show ledgerPairs (run (exec s Op.finish_call) ops) =
            specLive (ledgerPairs s) ops
          rw [ih (exec s Op.finish_call) (by rw [hpairs]; exact hd), hpairs]
      | reset =>
          simp only [distinctLiveAdds] at hd
          have hpairs : ledgerPairs (exec s Op.reset) = [] := rfl
          show ledgerPairs (run (exec s Op.reset) ops) = specLive [] ops
          rw [ih (exec s Op.reset) (by rw [hpairs]; exact hd), hpairs]

theorem total_eq_pairs_sum (s : CommandProcessor) :
    total_live_bytes s = ((ledgerPairs s).map Prod.snd).sum := by
  unfold total_live_bytes ledgerPairs
  rw [List.map_map]
  rfl

/-- C2: for every interleaving of `add_allocation` and `free_allocation`
calls in which the live addresses are distinct, `total_live_bytes()` equals
the sum of the sizes of the addresses that have been allocated but not yet
freed. -/
theorem ledger_balance (ops : List Op)
    (h : distinctLiveAdds [] ops = true) :
    total_live_bytes (run CommandProcessor.new ops) =
      ((specLive [] ops).map Prod.snd).sum := by
  rw [total_eq_pairs_sum]
  have h0 : ledgerPairs CommandProcessor.new = [] := rfl
  rw [ledgerPairs_run ops CommandProcessor.new (by rw [h0]; exact h), h0]

theorem ledger_balance_witness :
    distinctLiveAdds []
        [Op.add_allocation 1 5 0, Op.add_allocation 2 7 0,
         Op.free_allocation 1] = true
    ∧ total_live_bytes (run CommandProcessor.new
        [Op.add_allocation 1 5 0, Op.add_allocation 2 7 0,
         Op.free_allocation 1]) =
      ((specLive []
        [Op.add_allocation 1 5 0, Op.add_allocation 2 7 0,
         Op.free_allocation 1]).map Prod.snd).sum :=
  ⟨by decide,
    ledger_balance
      [Op.add_allocation 1 5 0, Op.add_allocation 2 7 0, Op.free_allocation 1]
      (by decide)⟩

theorem snapshot_peak_correspondence_witness :
    (run CommandProcessor.new [Op.add_allocation 1 5 0]).peak_snapshot =
        some [([], 5)]
    ∧ entriesSum [([], 5)] =
        (run CommandProcessor.new [Op.add_allocation 1 5 0]).peak_bytes :=
  ⟨by decide,
    snapshot_peak_correspondence [Op.add_allocation 1 5 0] [([], 5)]
      (by decide)⟩

theorem keys_removeAddress (l : List (Nat × AllocationRecord)) (a : Nat) :
    (removeAddress l a).map Prod.fst =
      (l.map Prod.fst).filter (fun k => k ≠ a) := by
  unfold removeAddress
  rw [List.filter_map Prod.fst l]
  rfl

theorem not_mem_keys_removeAddress (l : List (Nat × AllocationRecord))
    (a : Nat) : a ∉ (removeAddress l a).map Prod.fst := by
  rw [keys_removeAddress]
  intro hmem
  have := (List.mem_filter.mp hmem).2
  simp at this

theorem keysNodup_exec (s : CommandProcessor) (op : Op)
    (h : (s.ledger.map Prod.fst).Nodup) :
    ((exec s op).ledger.map Prod.fst).Nodup := by
  cases op with
  | add_allocation a sz ln =>
      have hledger : (exec s (Op.add_allocation a sz ln)).ledger =
          removeAddress s.ledger a ++
            [(a, { size := sz, path := setAllocLine s.callstack ln })] := by
        show (checkPeak _).ledger = _
        rw [checkPeak_ledger]
      rw [hledger, List.map_append]
      rw [List.nodup_append]
      refine ⟨?_, List.nodup_singleton a, ?_⟩
      · rw [keys_removeAddress]
        exact (h.filter _)
      · intro k hk hk2
        have hk1 : k = a := by simpa using hk2
        rw [hk1] at hk
        exact not_mem_keys_removeAddress s.ledger a hk
  | free_allocation a =>
      show ((removeAddress s.ledger a).map Prod.fst).Nodup
      rw [keys_removeAddress]
      exact h.filter _
  | start_call f pl ln => exact h
  | finish_call => exact h
  | reset => exact List.nodup_nil

theorem run_keysNodup (ops : List Op) : ∀ s : CommandProcessor,
    (s.ledger.map Prod.fst).Nodup →
    ((run s ops).ledger.map Prod.fst).Nodup := by
  induction ops with
  | nil => intro s h; exact h
  | cons op ops ih => intro s h; exact ih (exec s op) (keysNodup_exec s op h)

theorem lookup_none_keys (l : List (Nat × AllocationRecord)) (x : Nat)
    (h : lookupLedger l x = none) : ∀ e ∈ l, e.1 ≠ x := by
  induction l with
  | nil => intro e he; exact absurd he (List.not_mem_nil e)
  | cons e rest ih =>
      intro e2 he2
      unfold lookupLedger at h
      by_cases hx : e.1 = x
      · rw [if_pos hx] at h
        exact Option.noConfusion h
      · rw [if_neg hx] at h
        rcases List.mem_cons.mp he2 with h1 | h1
        · subst h1; exact hx
        · exact ih h e2 h1

theorem sum_of_lookup (l : List (Nat × AllocationRecord)) (x : Nat)
    (r : AllocationRecord) (hnd : (l.map Prod.fst).Nodup)
    (hl : lookupLedger l x = some r) :
    (l.map (fun e => e.2.size)).sum =
      ((removeAddress l x).map (fun e => e.2.size)).sum + r.size := by
  induction l with
  | nil => exact Option.noConfusion hl
  | cons e rest ih =>
      simp only [List.map_cons, List.nodup_cons] at hnd
      obtain ⟨hne, hndr⟩ := hnd
      unfold lookupLedger at hl
      by_cases hx : e.1 = x
      · rw [if_pos hx] at hl
        obtain rfl : e.2 = r := Option.some.inj hl
        have hrest : ∀ e2 ∈ rest, e2.1 ≠ x := by
          intro e2 he2 hc
          exact hne (by
            rw [← hx] at hc
            rw [← hc]
            exact List.mem_map_of_mem Prod.fst he2)
        have hrm : removeAddress (e :: rest) x = removeAddress rest x := by
          unfold removeAddress
          rw [List.filter_cons]
          have : decide (e.1 ≠ x) = false := by simp [hx]
          rw [this]
          simp
        rw [hrm, removeAddress_eq_self rest x hrest]
        simp only [List.map_cons, List.sum_cons]
        omega
      · rw [if_neg hx] at hl
        have hrm : removeAddress (e :: rest) x =
            e :: removeAddress rest x := by
          unfold removeAddress
          rw [List.filter_cons]
          have : decide (e.1 ≠ x) = true := by simpa using hx
          rw [this]
          simp
        rw [hrm]
        simp only [List.map_cons, List.sum_cons]
        rw [ih hndr hl]
        omega

theorem lookup_removeAddress_append (l : List (Nat × AllocationRecord))
    (x : Nat) (r : AllocationRecord) :
    lookupLedger (removeAddress l x ++ [(x, r)]) x = some r := by
  induction l with
  | nil =>
      show lookupLedger [(x, r)] x = some r
      unfold lookupLedger
      rw [if_pos rfl]
  | cons e rest ih =>
      by_cases hx : e.1 = x
      · have hrm : removeAddress (e :: rest) x = removeAddress rest x := by
          unfold removeAddress
          rw [List.filter_cons]
          simp [hx]
        rw [hrm]
        exact ih
      · have hrm : removeAddress (e :: rest) x = e :: removeAddress rest x := by
          unfold removeAddress
          rw [List.filter_cons]
          simp [hx]
        rw [hrm, List.cons_append]
        show (if e.1 = x then some e.2
          else lookupLedger (removeAddress rest x ++ [(x, r)]) x) = some r
        rw [if_neg hx]
        exact ih

/-- C5: when a live allocation record exists at address `X`, a second
`add_allocation` reported at `X` without an intervening free retires the old
record's byte contribution before installing the new record: afterwards the
live record at `X` is the new one and `total_live_bytes()` counts the second
allocation's size in place of the first — no bytes are double counted. -/
theorem stale_address_reuse (ops : List Op) (x size line_number : Nat)
    (old : AllocationRecord)
    (h : lookupLedger (run CommandProcessor.new ops).ledger x = some old) :
    total_live_bytes
        (add_allocation (run CommandProcessor.new ops) x size line_number)
        + old.size
      = total_live_bytes (run CommandProcessor.new ops) + size
    ∧ lookupLedger
        (add_allocation (run CommandProcessor.new ops) x size
          line_number).ledger x
      = some { size := size,
               path := setAllocLine (run CommandProcessor.new ops).callstack
                 line_number } := by
  have hnd : ((run CommandProcessor.new ops).ledger.map Prod.fst).Nodup :=
    run_keysNodup ops CommandProcessor.new List.nodup_nil
  have hledger :
      (add_allocation (run CommandProcessor.new ops) x size line_number).ledger
        = removeAddress (run CommandProcessor.new ops).ledger x ++
            [(x, { size := size,
                   path := setAllocLine
                     (run CommandProcessor.new ops).callstack line_number })] := by
    show (checkPeak _).ledger = _
    rw [checkPeak_ledger]
  constructor
  · have hsum := sum_of_lookup (run CommandProcessor.new ops).ledger x old hnd h
    show ((_ : CommandProcessor).ledger.map (fun e => e.2.size)).sum + old.size
      = total_live_bytes (run CommandProcessor.new ops) + size
    rw [hledger, List.map_append, List.sum_append]
    unfold total_live_bytes
    rw [hsum]
    simp
    omega
  · rw [hledger]
    exact lookup_removeAddress_append (run CommandProcessor.new ops).ledger x _

theorem stale_address_reuse_witness :
    lookupLedger (run CommandProcessor.new [Op.add_allocation 7 3 0]).ledger 7
        = some { size := 3, path := [] }
    ∧ total_live_bytes
          (add_allocation (run CommandProcessor.new [Op.add_allocation 7 3 0])
            7 10 0) + 3
        = total_live_bytes (run CommandProcessor.new [Op.add_allocation 7 3 0])
            + 10 :=
  ⟨by decide,
    by
      have := (stale_address_reuse [Op.add_allocation 7 3 0] 7 10 0
        { size := 3, path := [] } (by decide)).1
      exact this⟩

/-- C6: a `free_allocation` on an address with no live record leaves the
engine state unchanged, and a `finish_call` with an empty frame stack leaves
the engine state unchanged — each on its own, in every state (ledger,
aggregates, peak value, snapshot, call stack), surfacing no error. -/
theorem malformed_event_noop (s : CommandProcessor) (x : Nat) :
    (lookupLedger s.ledger x = none → free_allocation s x = s)
    ∧ (s.callstack = [] → finish_call s = s) := by
  constructor
  · intro h1
    show { s with ledger := removeAddress s.ledger x } = s
    rw [removeAddress_eq_self s.ledger x (lookup_none_keys s.ledger x h1)]
  · intro h2
    obtain ⟨cs, l, pk, ps⟩ := s
    simp only at h2
    subst h2
    rfl

theorem malformed_event_noop_witness :
    lookupLedger (start_call CommandProcessor.new
        { module_name := "m", function_name := "f" } 0 1).ledger 2 = none
    ∧ free_allocation (start_call CommandProcessor.new
          { module_name := "m", function_name := "f" } 0 1) 2 =
        start_call CommandProcessor.new
          { module_name := "m", function_name := "f" } 0 1
    ∧ CommandProcessor.new.callstack = []
    ∧ finish_call CommandProcessor.new = CommandProcessor.new := by
  refine ⟨by decide, ?_, by decide, ?_⟩
  · exact (malformed_event_noop (start_call CommandProcessor.new
      { module_name := "m", function_name := "f" } 0 1) 2).1 (by decide)
  · exact (malformed_event_noop CommandProcessor.new 0).2 (by decide)

theorem subtreeBytes_cons (e : Nat × AllocationRecord)
    (l : List (Nat × AllocationRecord)) (p : CallPath) :
    subtreeBytes (e :: l) p =
      (if p.isPrefixOf e.2.path then e.2.size else 0) + subtreeBytes l p := by
  unfold subtreeBytes
  rw [List.filter_cons]
  by_cases h : p.isPrefixOf e.2.path = true
  · simp [h]
  · simp [h]

theorem directBytes_cons (e : Nat × AllocationRecord)
    (l : List (Nat × AllocationRecord)) (p : CallPath) :
    directBytes (e :: l) p =
      (if e.2.path = p then e.2.size else 0) + directBytes l p := by
  unfold directBytes
  rw [List.filter_cons]
  by_cases h : e.2.path = p
  · simp [h]
  · simp [h]

theorem childFrame_eq_some_iff (p : CallPath) (f : CallFrame) (q : CallPath) :
    childFrame p q = some f ↔ (p ++ [f]).isPrefixOf q = true := by
  constructor
  · intro h
    unfold childFrame at h
    by_cases hp : p.isPrefixOf q = true
    · rw [if_pos hp] at h
      obtain ⟨t, ht⟩ := List.isPrefixOf_iff_prefix.mp hp
      subst ht
      rw [List.drop_left] at h
      cases t with
      | nil => exact Option.noConfusion h
      | cons a t2 =>
          have ha : a = f := by simpa using h
          subst ha
          rw [List.isPrefixOf_iff_prefix]
          exact ⟨t2, by simp⟩
    · rw [if_neg hp] at h
      exact Option.noConfusion h
  · intro h
    obtain ⟨t, ht⟩ := List.isPrefixOf_iff_prefix.mp h
    unfold childFrame
    have hp : p.isPrefixOf q = true := by
      rw [List.isPrefixOf_iff_prefix]
      exact ⟨f :: t, by rw [← ht]; simp⟩
    rw [if_pos hp, ← ht, List.append_assoc, List.drop_left]
    rfl

theorem childFrame_self (p : CallPath) : childFrame p p = none := by
  unfold childFrame
  rw [if_pos (by rw [List.isPrefixOf_iff_prefix])]
  rw [List.drop_length]
  rfl

theorem isPrefixOf_iff_eq_or_child (p q : CallPath) :
    p.isPrefixOf q = true ↔ q = p ∨ (childFrame p q).isSome = true := by
  constructor
  · intro h
    obtain ⟨t, ht⟩ := List.isPrefixOf_iff_prefix.mp h
    cases t with
    | nil => left; rw [← ht]; simp
    | cons f t2 =>
        right
        have hc : childFrame p q = some f := by
          rw [childFrame_eq_some_iff, List.isPrefixOf_iff_prefix]
          exact ⟨t2, by rw [← ht]; simp⟩
        rw [hc]
        rfl
  · intro h
    rcases h with h | h
    · subst h
      rw [List.isPrefixOf_iff_prefix]
    · cases hc : childFrame p q with
      | none => rw [hc] at h; exact absurd h (by simp)
      | some f =>
          have h2 := (childFrame_eq_some_iff p f q).mp hc
          obtain ⟨t, ht⟩ := List.isPrefixOf_iff_prefix.mp h2
          rw [List.isPrefixOf_iff_prefix]
          exact ⟨f :: t, by rw [← ht]; simp⟩

theorem sum_map_zero (ks : List CallFrame) :
    (ks.map (fun _ => (0 : Nat))).sum = 0 := by
  induction ks with
  | nil => rfl
  | cons k ks ih => simp [ih]

theorem sum_map_addf (ks : List CallFrame) (g h : CallFrame → Nat) :
    (ks.map (fun b => g b + h b)).sum = (ks.map g).sum + (ks.map h).sum := by
  induction ks with
  | nil => rfl
  | cons k ks ih =>
      simp only [List.map_cons, List.sum_cons, ih]
      omega

theorem sum_map_single (ks : List CallFrame) (f0 : CallFrame) (c : Nat) :
    ks.Nodup → f0 ∈ ks →
    (ks.map (fun f => if f = f0 then c else 0)).sum = c := by
  induction ks with
  | nil => intro _ h; exact absurd h (List.not_mem_nil f0)
  | cons k ks ih =>
      intro hnd hmem
      rw [List.nodup_cons] at hnd
      obtain ⟨hk, hnd2⟩ := hnd
      simp only [List.map_cons, List.sum_cons]
      by_cases hkf : k = f0
      · subst hkf
        rw [if_pos rfl]
        have hz : ∀ f ∈ ks, (if f = k then c else 0) = (fun _ => (0 : Nat)) f := by
          intro f hf
          rw [if_neg]
          intro hc
          subst hc
          exact hk hf
        rw [List.map_congr_left hz, sum_map_zero]
        omega
      · rw [if_neg hkf]
        rcases List.mem_cons.mp hmem with h1 | h1
        · exact absurd h1.symm hkf
        · rw [ih hnd2 h1]
          omega

theorem childSum_partition (p : CallPath) (ks : List CallFrame)
    (hnd : ks.Nodup) :
    ∀ L : List (Nat × AllocationRecord),
    (∀ e ∈ L, ∀ f, childFrame p e.2.path = some f → f ∈ ks) →
    (ks.map (fun f => subtreeBytes L (p ++ [f]))).sum =
      ((L.filter (fun e => (childFrame p e.2.path).isSome)).map
        (fun e => e.2.size)).sum := by
  intro L
  induction L with
  | nil =>
      intro _
      have hz : ∀ f ∈ ks, subtreeBytes [] (p ++ [f]) = (fun _ => (0 : Nat)) f :=
        fun f _ => rfl
      rw [List.map_congr_left hz, sum_map_zero]
      rfl
  | cons e L ih =>
      intro hcov
      have hcov2 : ∀ e2 ∈ L, ∀ f, childFrame p e2.2.path = some f → f ∈ ks :=
        fun e2 he2 => hcov e2 (List.mem_cons_of_mem e he2)
      have hfun : (fun f => subtreeBytes (e :: L) (p ++ [f])) =
          (fun f => (if childFrame p e.2.path = some f then e.2.size else 0) +
            subtreeBytes L (p ++ [f])) := by
        funext f
        rw [subtreeBytes_cons]
        congr 1
        by_cases hc : childFrame p e.2.path = some f
        · rw [if_pos ((childFrame_eq_some_iff p f e.2.path).mp hc), if_pos hc]
        · rw [if_neg
            (fun hh => hc ((childFrame_eq_some_iff p f e.2.path).mpr hh)),
            if_neg hc]
      rw [hfun, sum_map_addf, ih hcov2, List.filter_cons]
      cases hc : childFrame p e.2.path with
      | none =>
          have hz : ∀ f ∈ ks,
              (if (none : Option CallFrame) = some f then e.2.size else 0) =
                (fun _ => (0 : Nat)) f := by
            intro f _
            rw [if_neg (fun hh => Option.noConfusion hh)]
          rw [List.map_congr_left hz, sum_map_zero]
          simp
      | some f0 =>
          have hf0 : f0 ∈ ks := hcov e (List.mem_cons_self e L) f0 hc
          have hz : ∀ f ∈ ks,
              (if some f0 = some f then e.2.size else 0) =
                (fun f => if f = f0 then e.2.size else 0) f := by
            intro f _
            by_cases hf : f = f0
            · subst hf
              rw [if_pos rfl]
              exact (if_pos rfl).symm
            · rw [if_neg (fun hh => hf (Option.some.inj hh).symm)]
              exact (if_neg hf).symm
          rw [List.map_congr_left hz, sum_map_single ks f0 e.2.size hnd hf0]
          simp only [Option.isSome_some, if_true, List.map_cons, List.sum_cons]

theorem subtreeBytes_split (p : CallPath) :
    ∀ L : List (Nat × AllocationRecord),
    subtreeBytes L p = directBytes L p +
      ((L.filter (fun e => (childFrame p e.2.path).isSome)).map
        (fun e => e.2.size)).sum := by
  intro L
  induction L with
  | nil => rfl
  | cons e L ih =>
      rw [subtreeBytes_cons, directBytes_cons, List.filter_cons]
      by_cases he : e.2.path = p
      · have hpre : p.isPrefixOf e.2.path = true := by
          rw [he, List.isPrefixOf_iff_prefix]
        have hcf : childFrame p e.2.path = none := by
          rw [he]
          exact childFrame_self p
        rw [if_pos hpre, if_pos he, hcf]
        simp only [Option.isSome_none, Bool.false_eq_true, if_false]
        rw [ih]
        omega
      · by_cases hc : (childFrame p e.2.path).isSome = true
        · have hpre : p.isPrefixOf e.2.path = true :=
            (isPrefixOf_iff_eq_or_child p e.2.path).mpr (Or.inr hc)
          rw [if_pos hpre, if_neg he, if_pos hc]
          simp only [List.map_cons, List.sum_cons]
          rw [ih]
          omega
        · have hpre : ¬ p.isPrefixOf e.2.path = true := by
            intro hp
            rcases (isPrefixOf_iff_eq_or_child p e.2.path).mp hp with h1 | h1
            · exact he h1
            · exact hc h1
          rw [if_neg hpre, if_neg he, if_neg hc]
          rw [ih]
          omega

theorem call_tree_conservation_any (L : List (Nat × AllocationRecord))
    (p : CallPath) :
    subtreeBytes L p = directBytes L p +
      ((childFrames L p).map (fun f => subtreeBytes L (p ++ [f]))).sum := by
  have hcov : ∀ e ∈ L, ∀ f, childFrame p e.2.path = some f →
      f ∈ childFrames L p := by
    intro e he f hf
    unfold childFrames
    rw [List.mem_dedup]
    exact List.mem_filterMap.mpr ⟨e, he, hf⟩
  rw [subtreeBytes_split p L]
  congr 1
  exact (childSum_partition p (childFrames L p) (List.nodup_dedup _) L hcov).symm

/-- C3: after every sequence of engine operations, every Call-Tree node's
aggregate byte count equals its own directly-attributed bytes plus the sum
of its children's aggregates: the per-prefix totals conserve the live bytes
of allocations made under that path prefix. -/
theorem call_tree_conservation (ops : List Op) (p : CallPath) :
    subtreeBytes (run CommandProcessor.new ops).ledger p =
      directBytes (run CommandProcessor.new ops).ledger p +
        ((childFrames (run CommandProcessor.new ops).ledger p).map
          (fun f =>
            subtreeBytes (run CommandProcessor.new ops).ledger (p ++ [f]))).sum :=
  call_tree_conservation_any (run CommandProcessor.new ops).ledger p

theorem string_append_assoc (a b c : String) : a ++ b ++ c = a ++ (b ++ c) := by
  cases a
  cases b
  cases c
  show String.append (String.append _ _) _ = String.append _ (String.append _ _)
  simp [String.append]

theorem intercalate_go_prepend (sep pre : String) :
    ∀ (l : List String) (acc : String),
      String.intercalate.go (pre ++ acc) sep l =
        pre ++ String.intercalate.go acc sep l := by
  intro l
  induction l with
  | nil => intro acc; rfl
  | cons a l ih =>
      intro acc
      show String.intercalate.go (pre ++ acc ++ sep ++ a) sep l =
        pre ++ String.intercalate.go (acc ++ sep ++ a) sep l
      rw [string_append_assoc pre acc sep, string_append_assoc pre (acc ++ sep) a]
      exact ih (acc ++ sep ++ a)

theorem joinFrames_eq_intercalate (p : CallPath) :
    joinFrames p = String.intercalate ";" (p.map frameLabel) := by
  induction p with
  | nil => rfl
  | cons f rest ih =>
      cases rest with
      | nil => rfl
      | cons g rest2 =>
          show frameLabel f ++ ";" ++ joinFrames (g :: rest2) =
            String.intercalate ";"
              (frameLabel f :: frameLabel g :: rest2.map frameLabel)
          rw [ih]
          show _ = String.intercalate.go (frameLabel f ++ ";" ++ frameLabel g)
            ";" (rest2.map frameLabel)
          rw [intercalate_go_prepend ";" (frameLabel f ++ ";")
            (rest2.map frameLabel) (frameLabel g)]
          rfl

/-- C7: the flamegraph export emits exactly one folded-stack line per tree
node with nonzero directly-attributed bytes (zero-byte nodes omitted), each
line the semicolon-joined `module.function:line` frame labels from the root
followed by the byte count; and in the concrete scenario
`start_call(0,"m","f",1)`, `add_allocation(0x1000, 100, 1)`, `finish_call()`
the peak is 100 and the report contains the line `m.f:1 100`. -/
theorem flamegraph_export (entries : List (CallPath × Nat)) :
    foldedLines entries =
      (entries.filter (fun e => e.2 ≠ 0)).map
        (fun e =>
          String.intercalate ";" (e.1.map frameLabel) ++ " " ++ toString e.2)
    ∧ (run CommandProcessor.new
        [Op.start_call { module_name := "m", function_name := "f" } 0 1,
         Op.add_allocation 4096 100 1, Op.finish_call]).peak_bytes = 100
    ∧ "m.f:1 100" ∈ foldedLines (snapshotEntries (run CommandProcessor.new
        [Op.start_call { module_name := "m", function_name := "f" } 0 1,
         Op.add_allocation 4096 100 1, Op.finish_call])) := by
  refine ⟨?_, by decide, by decide⟩
  induction entries with
  | nil => rfl
  | cons e rest ih =>
      obtain ⟨p, b⟩ := e
      by_cases hb : b = 0
      · subst hb
        simp [foldedLines, ih]
      · simp [foldedLines, hb, ih, joinFrames_eq_intercalate]

/-- C8: dumping the same Peak Snapshot twice with no intervening mutation
produces byte-identical output — the dump leaves the state unchanged and the
report text is a deterministic function of the snapshot. -/
theorem flamegraph_determinism (s : CommandProcessor)
    (w : String → Except String Unit) :
    (dump_peak_to_flamegraph s w).2 = s
    ∧ (dump_peak_to_flamegraph ((dump_peak_to_flamegraph s w).2) w).1 =
        (dump_peak_to_flamegraph s w).1
    ∧ reportText ((dump_peak_to_flamegraph s w).2) = reportText s :=
  ⟨rfl, rfl, rfl⟩

/-- C9: `dump_peak_to_flamegraph` surfaces a failing write as a distinct
error result while leaving all internal tracking state unchanged, so the
caller may retry; no other engine operation can fail (each is a total
function into `CommandProcessor`). -/
theorem dump_io_failure (s : CommandProcessor)
    (w : String → Except String Unit) (e : String)
    (h : w (reportText s) = Except.error e) :
    (dump_peak_to_flamegraph s w).1 = Except.error e
    ∧ (dump_peak_to_flamegraph s w).2 = s :=
  ⟨h, rfl⟩

theorem dump_io_failure_witness :
    (fun _ : String => (Except.error "disk full" : Except String Unit))
        (reportText CommandProcessor.new) = Except.error "disk full"
    ∧ (dump_peak_to_flamegraph CommandProcessor.new
        (fun _ => Except.error "disk full")).1 = Except.error "disk full"
    ∧ (dump_peak_to_flamegraph CommandProcessor.new
        (fun _ => Except.error "disk full")).2 = CommandProcessor.new := by
  have h := dump_io_failure CommandProcessor.new
    (fun _ => Except.error "disk full") "disk full" rfl
  exact ⟨rfl, h.1, h.2⟩

/-- C10: the FFI entry `pymemprofile_dump_peak_to_flamegraph` panics (via
`expect` on the `CStr`-to-`str` conversion) exactly when the path bytes are
not valid UTF-8; for every valid-UTF-8 path the conversion succeeds and the
dump proceeds. -/
theorem ffi_dump_utf8 (path_bytes : List Nat) (s : CommandProcessor)
    (w : String → Except String Unit) :
    (pymemprofile_dump_peak_to_flamegraph path_bytes s w = none ↔
      validUtf8 path_bytes = false)
    ∧ (validUtf8 path_bytes = true →
        pymemprofile_dump_peak_to_flamegraph path_bytes s w =
          some (dump_peak_to_flamegraph s w)) := by
  by_cases hv : validUtf8 path_bytes = true
  · refine ⟨⟨fun h => ?_, fun h => ?_⟩, fun _ => ?_⟩
    · unfold pymemprofile_dump_peak_to_flamegraph at h
      rw [if_pos hv] at h
      exact Option.noConfusion h
    · rw [hv] at h
      exact Bool.noConfusion h
    · unfold pymemprofile_dump_peak_to_flamegraph
      rw [if_pos hv]
  · have hf : validUtf8 path_bytes = false := by
      cases hb : validUtf8 path_bytes
      · rfl
      · exact absurd hb hv
    refine ⟨⟨fun _ => hf, fun _ => ?_⟩, fun h => absurd h hv⟩
    unfold pymemprofile_dump_peak_to_flamegraph
    rw [if_neg hv]

theorem ffi_dump_utf8_witness :
    validUtf8 [255] = false
    ∧ pymemprofile_dump_peak_to_flamegraph [255] CommandProcessor.new
        (fun _ => Except.ok ()) = none
    ∧ validUtf8 [104, 105] = true
    ∧ pymemprofile_dump_peak_to_flamegraph [104, 105] CommandProcessor.new
        (fun _ => Except.ok ()) =
      some (dump_peak_to_flamegraph CommandProcessor.new
        (fun _ => Except.ok ())) := by
  refine ⟨by decide, ?_, by decide, ?_⟩
  · exact (ffi_dump_utf8 [255] CommandProcessor.new
      (fun _ => Except.ok ())).1.mpr (by decide)
  · exact (ffi_dump_utf8 [104, 105] CommandProcessor.new
      (fun _ => Except.ok ())).2 (by decide)

end FilProfiler
